import Mathlib

/-!
Verification development for the unix-sort repository (Go sources:
main.go, sortutil/sortutil.go, sortutil/external.go, and an alternate
copy of the external-sort file).  Lines are modelled as lists of
characters; Go's byte-wise string comparison on UTF-8 strings agrees
with codepoint-wise lexicographic comparison, which is what `lexLt`
implements.  Go `float64` values produced by `strconv.ParseFloat` are
modelled as exact rationals: every claim under study concerns the
parsing structure and the suffix tables, not IEEE rounding.
-/

namespace UnixSort

abbrev Line := List Char

/-- `SortOptions` from sortutil/sortutil.go (Reverse, Numeric, Month,
Human, KeyCol, IgnoreBlanks, Unique). -/
structure SortOptions where
  reverse : Bool := false
  numeric : Bool := false
  month : Bool := false
  human : Bool := false
  keyCol : Int := 0
  ignoreBlanks : Bool := false
  unique : Bool := false
deriving Repr, DecidableEq

/-- Go's `a < b` on strings: byte-wise lexicographic comparison
(codepoint-wise on the char-list model). -/
def lexLt : Line → Line → Bool
  | _, [] => false
  | [], _ :: _ => true
  | a :: as, b :: bs => if a < b then true else if b < a then false else lexLt as bs

/-- `strings.Split(line, "\t")` from `getKey`. -/
def splitTab : Line → List Line
  | [] => [[]]
  | c :: rest =>
    let r := splitTab rest
    if c = '\t' then [] :: r
    else
      match r with
      | f :: fs => (c :: f) :: fs
      | [] => [[c]]

/-- `getKey` from sortutil/sortutil.go (identical logic in main.go and in
`mergeHeap.getKey` of sortutil/external.go): column 0 or less returns the
whole line, otherwise the 1-based tab-delimited field, or the empty
string when the column exceeds the field count. -/
def getKey (line : Line) (col : Int) : Line :=
  if col ≤ 0 then line
  else
    let fields := splitTab line
    if col > (fields.length : Int) then []
    else fields.getD (col.toNat - 1) []

/-- space or tab, the cutset of `trimBlanks`. -/
def isBlank (c : Char) : Bool := c = ' ' || c = '\t'

/-- `trimBlanks` from sortutil/sortutil.go: `strings.Trim(s, " \t")`. -/
def trimBlanks (s : Line) : Line :=
  ((s.dropWhile isBlank).reverse.dropWhile isBlank).reverse

/-- `monthValue` with the `monthMap` table from sortutil/sortutil.go. -/
def monthValue (s : Line) : Nat :=
  if s = "Jan".toList then 1
  else if s = "Feb".toList then 2
  else if s = "Mar".toList then 3
  else if s = "Apr".toList then 4
  else if s = "May".toList then 5
  else if s = "Jun".toList then 6
  else if s = "Jul".toList then 7
  else if s = "Aug".toList then 8
  else if s = "Sep".toList then 9
  else if s = "Oct".toList then 10
  else if s = "Nov".toList then 11
  else if s = "Dec".toList then 12
  else 0

def isDigit (c : Char) : Bool := '0' ≤ c && c ≤ '9'

def digitsToNat (l : List Char) : Nat :=
  l.foldl (fun acc c => acc * 10 + (c.toNat - '0'.toNat)) 0

/-- `parseFloat` from sortutil/sortutil.go: skip leading blanks, optional
minus sign, digits, optional decimal point with digits; with no digit at
all (this includes the cases the Go code rejects through the
`i == start` tests and through `strconv.ParseFloat` failing on `"."` or
`"-."`) the result is `(0, s)` with the original string; otherwise the
exactly-parsed decimal value and the unconsumed suffix.  The parsed
value is modelled as an exact rational. -/
def parseFloat (s : Line) : ℚ × Line :=
  if s = [] then (0, s)
  else
    let afterBlanks := s.dropWhile isBlank
    if afterBlanks = [] then (0, s)
    else
      let neg : Bool := afterBlanks.headD ' ' = '-'
      let afterSign := if neg then afterBlanks.tail else afterBlanks
      if neg ∧ afterSign = [] then (0, s)
      else
        let intDigits := afterSign.takeWhile isDigit
        let afterInt := afterSign.dropWhile isDigit
        let fracDigits :=
          match afterInt with
          | '.' :: r => r.takeWhile isDigit
          | _ => []
        let rest :=
          match afterInt with
          | '.' :: r => r.dropWhile isDigit
          | _ => afterInt
        if intDigits = [] ∧ fracDigits = [] then (0, s)
        else
          let mag : ℚ :=
            (digitsToNat intDigits : ℚ) +
              (digitsToNat fracDigits : ℚ) / ((10 : ℚ) ^ fracDigits.length)
          (if neg then -mag else mag, rest)

/-- `numericPrefix` from sortutil/sortutil.go (renamed: the numeric value
of the leading prefix, 0 when absent). -/
def numericValue (s : Line) : ℚ := (parseFloat s).1

/-- the ASCII part of the cutset of `strings.TrimSpace` used on the
suffix in `humanValue`. -/
def isSpaceChar (c : Char) : Bool :=
  c = ' ' || c = '\t' || c = '\n' || c = '\u000b' || c = '\u000c' || c = '\r'

def trimSpace (s : Line) : Line :=
  ((s.dropWhile isSpaceChar).reverse.dropWhile isSpaceChar).reverse

/-- the binary-adjustment `switch` inside `humanValue`: it converts the
decimal multipliers 1000 … 1e15 to powers of 1024 (the Go source spells
them `1024 * 1024`, …, `1 << 50`; the products are folded to literals
here), and has no case for 1e18, which it therefore leaves unchanged. -/
def binaryAdjust (m : ℚ) : ℚ :=
  if m = 1000 then 1024
  else if m = 1000000 then 1048576
  else if m = 1000000000 then 1073741824
  else if m = 1000000000000 then 1099511627776
  else if m = 1000000000000000 then 1125899906842624
  else m

/-- `humanValue` from sortutil/sortutil.go (duplicated verbatim in
main.go): numeric prefix, then an optional suffix; a trailing `i` after
a multi-character suffix selects the binary adjustment.  The decimal
multipliers are the source's constants with products folded
(`1000 * 1000` = 1000000, …). -/
def humanValue (s : Line) : ℚ :=
  let p := parseFloat s
  if p.2 = s then 0
  else
    let suffix := trimSpace p.2
    if suffix = [] then p.1
    else
      let isBinary : Bool := suffix.length ≥ 2 && suffix.getLastD ' ' = 'i'
      let suffix2 := if isBinary then suffix.dropLast else suffix
      let multiplier : Option ℚ :=
        if suffix2 = ['K'] then some 1000
        else if suffix2 = ['M'] then some 1000000
        else if suffix2 = ['G'] then some 1000000000
        else if suffix2 = ['T'] then some 1000000000000
        else if suffix2 = ['P'] then some 1000000000000000
        else if suffix2 = ['E'] then some 1000000000000000000
        else none
      match multiplier with
      | none => 0
      | some m => p.1 * (if isBinary then binaryAdjust m else m)

/-- the key of a line under the options: `getKey` plus the optional
`trimBlanks`, exactly as every comparison site in the source computes
it before comparing. -/
def normKey (opts : SortOptions) (line : Line) : Line :=
  let k := getKey line opts.keyCol
  if opts.ignoreBlanks then trimBlanks k else k

/-- the typed value the active mode assigns to a key (0 when no typed
mode is active); the `if` chain mirrors the Human / Month / Numeric
dispatch order of the source. -/
def typedVal (opts : SortOptions) (k : Line) : ℚ :=
  if opts.human then humanValue k
  else if opts.month then (monthValue k : ℚ)
  else if opts.numeric then numericValue k
  else 0

/-- the comparison closure of `SortInMemory` (sortutil/sortutil.go,
identical in main.go): typed values first, byte-wise comparison of the
extracted keys as tie-break. -/
def inMemLess (opts : SortOptions) (x y : Line) : Bool :=
  let a := normKey opts x
  let b := normKey opts y
  if opts.human then
    if humanValue a ≠ humanValue b then decide (humanValue a < humanValue b)
    else lexLt a b
  else if opts.month then
    if monthValue a ≠ monthValue b then decide (monthValue a < monthValue b)
    else lexLt a b
  else if opts.numeric then
    if numericValue a ≠ numericValue b then decide (numericValue a < numericValue b)
    else lexLt a b
  else lexLt a b

/-- `mergeHeap.Less` from sortutil/external.go (identical in the
alternate copy): typed values of the keys first, but the tie-break and
the untyped fallback compare the raw lines `a` and `b`, and `Reverse`
inverts the result. -/
def heapLess (opts : SortOptions) (x y : Line) : Bool :=
  let a := normKey opts x
  let b := normKey opts y
  let less :=
    if opts.human then
      if humanValue a ≠ humanValue b then decide (humanValue a < humanValue b)
      else lexLt x y
    else if opts.month then
      if monthValue a ≠ monthValue b then decide (monthValue a < monthValue b)
      else lexLt x y
    else if opts.numeric then
      if numericValue a ≠ numericValue b then decide (numericValue a < numericValue b)
      else lexLt x y
    else lexLt x y
  if opts.reverse then !less else less

/-- the non-strict order handed to the stable sort: `sort.SliceStable`
with a `less` closure produces the unique stable order in which `x`
may precede `y` iff `¬ less y x`. -/
def sortLe (opts : SortOptions) (x y : Line) : Bool := !(inMemLess opts y x)

/-- `equivalent` from sortutil/external.go; the adjacent-equality test
of the `Unique` block of `SortInMemory` computes exactly the same
predicate. -/
def equivalentLines (opts : SortOptions) (x y : Line) : Bool :=
  let a := normKey opts x
  let b := normKey opts y
  if opts.human then humanValue a = humanValue b
  else if opts.month then monthValue a = monthValue b
  else if opts.numeric then numericValue a = numericValue b
  else a = b

/-- the `Unique` collapse loop of `SortInMemory`: line `i` is kept iff it
is not equivalent to line `i-1` of the sorted slice (the previous
original element, not the previous kept one). -/
def uniqueGo (opts : SortOptions) (prev : Line) : List Line → List Line
  | [] => []
  | y :: t =>
    if equivalentLines opts prev y then uniqueGo opts y t
    else y :: uniqueGo opts y t

def uniquePass (opts : SortOptions) : List Line → List Line
  | [] => []
  | x :: rest => x :: uniqueGo opts x rest

/-- `sort.SliceStable(lines, less)`: the stable sort with respect to the
comparison closure.  A stable sort is extensionally determined by the
relation and the input (ties keep input order), so the model may use any
stable implementation; stable insertion sort is used because it is
structurally recursive and therefore computable by the kernel. -/
def stableSort (opts : SortOptions) (lines : List Line) : List Line :=
  List.insertionSort (fun a b => sortLe opts a b = true) lines

/-- `SortInMemory` from sortutil/sortutil.go: stable sort, optional
unique collapse, optional reversal, in that order. -/
def sortInMemory (opts : SortOptions) (lines : List Line) : List Line :=
  let sorted := stableSort opts lines
  let uniqued := if opts.unique then uniquePass opts sorted else sorted
  if opts.reverse then uniqued.reverse else uniqued

/-! ### K-way merge (sortutil/external.go)

A `MergeHeapEntry` is the current front line of a run together with the
unread remainder of that run.  `container/heap` pops an element that is
minimal with respect to `mergeHeap.Less`; ties between runs are broken
by the heap's internal layout, an order the program does not define, so
the model fixes the concrete policy of extracting the leftmost minimal
entry.  Every property proved below is independent of that choice. -/

/-- extract a `heapLess`-minimal entry (the leftmost one) and the
remaining entries; models one `heap.Pop`. -/
def extractMin (opts : SortOptions) :
    (Line × List Line) → List (Line × List Line) →
    ((Line × List Line) × List (Line × List Line))
  | e, [] => (e, [])
  | e, f :: rest =>
    if heapLess opts f.1 e.1 then
      let p := extractMin opts f rest
      (p.1, e :: p.2)
    else
      let p := extractMin opts e rest
      (p.1, f :: p.2)

theorem extractMin_perm (opts : SortOptions) (e : Line × List Line)
    (l : List (Line × List Line)) :
    List.Perm ((extractMin opts e l).1 :: (extractMin opts e l).2) (e :: l) := by
  induction l generalizing e with
  | nil => simp [extractMin]
  | cons f rest ih =>
    simp only [extractMin]
    by_cases h : heapLess opts f.1 e.1 = true
    · simp only [h, if_pos]
      exact (List.Perm.swap _ _ _).trans ((ih f).cons e)
    · simp only [h, if_neg, Bool.false_eq_true, not_false_iff]
      exact (List.Perm.swap _ _ _).trans
        (((ih e).cons f).trans (List.Perm.swap _ _ _))

def entryWeight (e : Line × List Line) : Nat := 1 + e.2.length

def entriesWeight (l : List (Line × List Line)) : Nat := (l.map entryWeight).sum

theorem extractMin_weight (opts : SortOptions) (e : Line × List Line)
    (l : List (Line × List Line)) :
    entryWeight (extractMin opts e l).1 + entriesWeight (extractMin opts e l).2 =
      entryWeight e + entriesWeight l := by
  have h := (extractMin_perm opts e l).map entryWeight
  have := h.sum_eq
  simpa [entriesWeight] using this

/-- advance the popped entry's cursor: push the successor back (at the
front, a position the heap does not pin down) or drop the exhausted
run. -/
def advanceEntries (p : (Line × List Line) × List (Line × List Line)) :
    List (Line × List Line) :=
  match p.1.2 with
  | [] => p.2
  | l :: t => (l, t) :: p.2

theorem advanceEntries_weight (p : (Line × List Line) × List (Line × List Line)) :
    entriesWeight (advanceEntries p) + 1 = entryWeight p.1 + entriesWeight p.2 := by
  rcases p with ⟨⟨f, rest⟩, others⟩
  cases rest with
  | nil => simp [advanceEntries, entryWeight]; omega
  | cons l t => simp [advanceEntries, entriesWeight, entryWeight]; omega

theorem advance_extract_weight_lt (opts : SortOptions) (e : Line × List Line)
    (rest : List (Line × List Line)) :
    entriesWeight (advanceEntries (extractMin opts e rest)) <
      entriesWeight (e :: rest) := by
  have h1 := advanceEntries_weight (extractMin opts e rest)
  have h2 := extractMin_weight opts e rest
  have h3 : entriesWeight (e :: rest) = entryWeight e + entriesWeight rest := by
    simp [entriesWeight]
  omega

/-- the merge loop of `mergeChunk`: pop the minimum, emit its line,
push the popped run's next line if any (no uniqueness filtering in
`mergeChunk`). -/
def mergeEntries (opts : SortOptions) : List (Line × List Line) → List Line
  | [] => []
  | e :: rest =>
    (extractMin opts e rest).1.1 ::
      mergeEntries opts (advanceEntries (extractMin opts e rest))
termination_by l => entriesWeight l
decreasing_by exact advance_extract_weight_lt opts e rest

/-- the merge loop of `mergeFiles`: as `mergeEntries`, but when
`Unique` is set a popped line equivalent to the last emitted one is
suppressed; `first`/`lastLine` model the identically named variables. -/
def mergeLoop (opts : SortOptions) (uniq first : Bool) (lastLine : Line) :
    List (Line × List Line) → List Line
  | [] => []
  | e :: rest =>
    let cur := (extractMin opts e rest).1.1
    let next := advanceEntries (extractMin opts e rest)
    if uniq then
      if first then cur :: mergeLoop opts uniq false cur next
      else if equivalentLines opts lastLine cur then
        mergeLoop opts uniq false lastLine next
      else cur :: mergeLoop opts uniq false cur next
    else cur :: mergeLoop opts uniq first lastLine next
termination_by l => entriesWeight l
decreasing_by
  all_goals exact advance_extract_weight_lt opts e rest

/-- seeding the heap: the first line of every non-empty run. -/
def seedEntries (runs : List (List Line)) : List (Line × List Line) :=
  runs.filterMap (fun r => match r with | [] => none | l :: t => some (l, t))

/-- `mergeFiles` from sortutil/external.go (`lastLine` starts as the
empty Go string, `first` as true). -/
def mergeFilesModel (opts : SortOptions) (runs : List (List Line)) : List Line :=
  mergeLoop opts opts.unique true [] (seedEntries runs)

/-- `mergeChunk` from sortutil/external.go: a full k-way merge of its
batch into one new run, without uniqueness filtering. -/
def mergeChunkModel (opts : SortOptions) (chunk : List (List Line)) : List Line :=
  mergeEntries opts (seedEntries chunk)

def maxOpenFiles : Nat := 64

/-- the `for i := 0; i < len; i += maxOpenFiles` slicing of the fan-in
reduction: consecutive batches of at most `maxOpenFiles` runs. -/
def chunkRuns : List (List Line) → List (List (List Line))
  | [] => []
  | f :: fs =>
    (f :: fs).take maxOpenFiles :: chunkRuns ((f :: fs).drop maxOpenFiles)
termination_by l => l.length
decreasing_by simp [maxOpenFiles]; omega

theorem chunkRuns_length_le (l : List (List Line)) :
    (chunkRuns l).length ≤ l.length := by
  induction l using chunkRuns.induct with
  | case1 => simp [chunkRuns]
  | case2 f fs ih =>
    rw [chunkRuns]
    simp only [List.length_cons, List.length_drop, maxOpenFiles] at ih ⊢
    omega

theorem chunkRuns_length_lt (l : List (List Line)) (h : maxOpenFiles < l.length) :
    (chunkRuns l).length < l.length := by
  cases l with
  | nil => simp [maxOpenFiles] at h
  | cons f fs =>
    rw [chunkRuns]
    have := chunkRuns_length_le ((f :: fs).drop maxOpenFiles)
    simp only [List.length_cons, List.length_drop, maxOpenFiles] at *
    omega

/-- the `for len(tempFiles) > maxOpenFiles` reduction loop of
`ExternalSort`: merge batches of at most 64 runs into intermediate runs
until at most 64 remain. -/
def reduceLoop (opts : SortOptions) (files : List (List Line)) : List (List Line) :=
  if files.length ≤ maxOpenFiles then files
  else reduceLoop opts ((chunkRuns files).map (mergeChunkModel opts))
termination_by files.length
decreasing_by
  rename_i h
  simp only [List.length_map]
  exact chunkRuns_length_lt files (by omega)

/-- the batch sizes every fan-in pass hands to `mergeChunk`. -/
def allChunkSizes (opts : SortOptions) (files : List (List Line)) : List Nat :=
  if files.length ≤ maxOpenFiles then []
  else
    (chunkRuns files).map List.length ++
      allChunkSizes opts ((chunkRuns files).map (mergeChunkModel opts))
termination_by files.length
decreasing_by
  rename_i h
  simp only [List.length_map]
  exact chunkRuns_length_lt files (by omega)

/-! ### Memory-budgeted ingestion (sortutil/external.go, sortutil.go) -/

/-- `len(line) + 16`, the accounted cost of one line in
`ReadLinesWithLimit` and in the `ExternalSort` ingestion loop. -/
def lineSize (l : Line) : Nat := l.length + 16

/-- `estimateMemorySize` from sortutil/sortutil.go. -/
def estimateMemorySize (lines : List Line) : Nat := (lines.map lineSize).sum

/-- `maxMemoryBytes = 100 * 1024 * 1024` from sortutil/external.go. -/
def maxMemoryBytes : Nat := 100 * 1024 * 1024

structure ExtState where
  buffer : List Line
  memoryUsed : Nat
  runs : List (List Line)
deriving Repr, DecidableEq

/-- one iteration of the `ExternalSort` scan loop, generic in the byte
budget (the program instantiates it at `maxMemoryBytes`): if adding the
line would exceed the budget and the buffer is non-empty, sort the
buffer, emit it as a new run, zero the running total, and start a fresh
buffer with the pending line; otherwise buffer the line and add its
cost. -/
def extStepB (maxBytes : Nat) (opts : SortOptions) (st : ExtState) (line : Line) :
    ExtState :=
  if maxBytes < st.memoryUsed + lineSize line ∧ st.buffer ≠ [] then
    { buffer := [line], memoryUsed := lineSize line,
      runs := st.runs ++ [sortInMemory opts st.buffer] }
  else
    { buffer := st.buffer ++ [line], memoryUsed := st.memoryUsed + lineSize line,
      runs := st.runs }

def extStep (opts : SortOptions) : ExtState → Line → ExtState :=
  extStepB maxMemoryBytes opts

def extIngestB (maxBytes : Nat) (opts : SortOptions) (init input : List Line) :
    ExtState :=
  input.foldl (extStepB maxBytes opts) ⟨init, estimateMemorySize init, []⟩

/-- the runs `ExternalSort` has created once input is exhausted,
including the final flush of a non-empty buffer. -/
def extRunsB (maxBytes : Nat) (opts : SortOptions) (init input : List Line) :
    List (List Line) :=
  let st := extIngestB maxBytes opts init input
  if st.buffer = [] then st.runs else st.runs ++ [sortInMemory opts st.buffer]

/-- the stream of lines `ExternalSort` emits (error-free execution):
nothing for zero runs, a direct pass-through for one run, otherwise the
fan-in reduction followed by the final k-way merge. -/
def externalSortOutB (maxBytes : Nat) (opts : SortOptions) (init input : List Line) :
    List Line :=
  let files := extRunsB maxBytes opts init input
  if files.length = 0 then []
  else if files.length = 1 then files.headD []
  else mergeFilesModel opts (reduceLoop opts files)

def externalSortOut (opts : SortOptions) (init input : List Line) : List Line :=
  externalSortOutB maxMemoryBytes opts init input

inductive ReadErr where
  | tooLarge
  | scanErr
deriving Repr, DecidableEq

/-- `ReadLinesWithLimit` from sortutil/sortutil.go, generic in the
budget; the scanner is a list of lines plus a flag saying whether
`s.Err()` reports an error once scanning stops.  On overflow the
triggering line is still appended and `ErrInputTooLarge` returned; a
scanner error yields a nil slice. -/
def readLinesAuxB (maxBytes : Nat) (errFlag : Bool) :
    List Line → Nat → List Line → List Line × Option ReadErr
  | [], _, acc => if errFlag then ([], some .scanErr) else (acc, none)
  | l :: rest, total, acc =>
    if maxBytes < total + lineSize l then (acc ++ [l], some .tooLarge)
    else readLinesAuxB maxBytes errFlag rest (total + lineSize l) (acc ++ [l])

def readLinesWithLimit (input : List Line) (errFlag : Bool) :
    List Line × Option ReadErr :=
  readLinesAuxB maxMemoryBytes errFlag input 0 []

/-- the first 0-based index `k` such that the accounted cost of the
first `k+1` lines exceeds the budget. -/
def overflowIdxB (maxBytes : Nat) (input : List Line) : Option Nat :=
  (List.range input.length).find?
    (fun k => decide (maxBytes < estimateMemorySize (input.take (k + 1))))

def overflowIdx (input : List Line) : Option Nat :=
  overflowIdxB maxMemoryBytes input

/-! ### Run lifecycle accounting (sortutil/external.go)

`ExternalSort` registers `defer cleanup(tempFiles)` while `tempFiles`
is still nil; Go evaluates a deferred call's arguments at the point of
the `defer` statement, so the deferred call receives the empty slice
and releases nothing.  The only releases that happen are the explicit
`cleanup(tempFiles)` calls inside the fan-in reduction loop, which
release the previous level's files.  The model counts, for an
error-free execution, how many temporary files are created and how
many are closed-and-removed. -/

/-- chunk count of one fan-in pass over `cnt` files. -/
def numChunks (cnt : Nat) : Nat := (cnt + 63) / 64

/-- (intermediate files created, files released) by the fan-in loop
starting from `cnt` run files. -/
def reduceResources (cnt : Nat) : Nat × Nat :=
  if cnt ≤ 64 then (0, 0)
  else
    let p := reduceResources (numChunks cnt)
    (numChunks cnt + p.1, cnt + p.2)
termination_by cnt
decreasing_by
  rename_i h
  simp only [numChunks]
  omega

/-- (total temp files created, total temp files released) over a whole
error-free `ExternalSort` call; the deferred `cleanup` contributes
zero releases because its argument was captured as the nil slice. -/
def extResourcesB (maxBytes : Nat) (opts : SortOptions) (init input : List Line) :
    Nat × Nat :=
  let k := (extRunsB maxBytes opts init input).length
  if k = 0 then (0, 0)
  else if k = 1 then (1, 0)
  else
    let p := reduceResources k
    (k + p.1, p.2)

/-! ### Check mode (main.go, sortutil.go `isUnordered`) -/

def natDigitsAux : Nat → List Char → List Char
  | n, acc =>
    if n < 10 then Char.ofNat (n + '0'.toNat) :: acc
    else natDigitsAux (n / 10) (Char.ofNat (n % 10 + '0'.toNat) :: acc)
termination_by n _ => n
decreasing_by
  rename_i h
  exact Nat.div_lt_self (by omega) (by omega)

/-- decimal rendering of `%d`. -/
def natDigits (n : Nat) : List Char := natDigitsAux n []

/-- the diagnostic line `sort: <source>:<N>: disorder: <text>` printed
by check mode (without the trailing newline the `Fprintf` adds). -/
def formatDisorder (source : Line) (n : Nat) (text : Line) : Line :=
  "sort: ".toList ++ source ++ [':'] ++ natDigits n ++ ": disorder: ".toList ++ text

/-- `isUnordered` from sortutil/external.go, the branch structure
main.go inlines in check mode; `prev` and `curr` are already-extracted
keys. -/
def isUnorderedModel (prev curr : Line) (opts : SortOptions) : Bool :=
  if opts.human then
    if humanValue prev ≠ humanValue curr then
      if opts.reverse then decide (humanValue prev < humanValue curr)
      else decide (humanValue curr < humanValue prev)
    else if opts.reverse then lexLt prev curr else lexLt curr prev
  else if opts.month then
    if monthValue prev ≠ monthValue curr then
      if opts.reverse then decide (monthValue prev < monthValue curr)
      else decide (monthValue curr < monthValue prev)
    else if opts.reverse then lexLt prev curr else lexLt curr prev
  else if opts.numeric then
    if numericValue prev ≠ numericValue curr then
      if opts.reverse then decide (numericValue prev < numericValue curr)
      else decide (numericValue curr < numericValue prev)
    else if opts.reverse then lexLt prev curr else lexLt curr prev
  else if opts.reverse then lexLt prev curr else lexLt curr prev

/-- the per-pair test of main.go's check loop: extract and normalize
both keys, then the `isUnordered` branch structure. -/
def checkUnordered (opts : SortOptions) (prevLine currLine : Line) : Bool :=
  isUnorderedModel (normKey opts prevLine) (normKey opts currLine) opts

/-- the check-mode scan of main.go: on the first unordered adjacent
pair print the diagnostic (with curr's 1-based line number) and exit
nonzero; `none` models the silent success exit 0. -/
def checkLoop (opts : SortOptions) (source : Line) :
    Line → List Line → Nat → Option Line
  | _, [], _ => none
  | prev, curr :: rest, n =>
    if checkUnordered opts prev curr then some (formatDisorder source n curr)
    else checkLoop opts source curr rest (n + 1)

def runCheck (lines : List Line) (source : Line) (opts : SortOptions) :
    Option Line :=
  match lines with
  | [] => none
  | l :: rest => checkLoop opts source l rest 2

/-- the claim's wording: the comparator orders `(a, b)` as greater
under the configured direction, reverse inverting the direction. -/
def orderGt (opts : SortOptions) (a b : Line) : Bool :=
  if opts.reverse then inMemLess opts a b else inMemLess opts b a

/-- index of the first adjacent pair ordered as greater. -/
def firstDisorder (opts : SortOptions) (lines : List Line) : Option Nat :=
  (lines.zip lines.tail).findIdx? (fun p => orderGt opts p.1 p.2)

/-! ### Auxiliary notions used by the statements -/

/-- the comparison the `SortInMemory` closure performs, rephrased as a
lexicographic comparison of the pair (typed value, key). -/
def keyLt (opts : SortOptions) (a b : Line) : Bool :=
  decide (typedVal opts a < typedVal opts b) ||
    (decide (typedVal opts a = typedVal opts b) && lexLt a b)

/-- greedy collapse against the last kept element, following the words
of the uniqueness specification (keep the first member of each maximal
group of `eqb`-related lines). -/
def collapseGoBy (eqb : Line → Line → Bool) (last : Line) : List Line → List Line
  | [] => []
  | y :: t =>
    if eqb last y then collapseGoBy eqb last t else y :: collapseGoBy eqb y t

def collapseBy (eqb : Line → Line → Bool) : List Line → List Line
  | [] => []
  | x :: rest => x :: collapseGoBy eqb x rest

/-- comparator equality: neither line compares less than the other. -/
def tieLine (opts : SortOptions) (a b : Line) : Bool :=
  !(inMemLess opts a b) && !(inMemLess opts b a)

/-- the multiset of lines an entry list still carries. -/
def entriesContent (l : List (Line × List Line)) : List Line :=
  (l.map (fun e => e.1 :: e.2)).flatten

/-- no typed mode is active. -/
def noTypedMode (opts : SortOptions) : Prop :=
  opts.human = false ∧ opts.month = false ∧ opts.numeric = false

/-- the running-total / buffered-lines relationship the budget monitor
is claimed to maintain: the total tracks the buffer's accounted cost,
and the cost of all but the last buffered line stays within the budget
(so the whole buffer overshoots by at most one line). -/
def budgetInv (maxBytes : Nat) (st : ExtState) : Prop :=
  st.memoryUsed = estimateMemorySize st.buffer ∧
  estimateMemorySize st.buffer.dropLast ≤ maxBytes

/-- claim C1 as stated: under no typed mode or equal typed values, both
the in-memory comparator and the merge-heap comparator are decided by
the byte-wise comparison of the normalized keys (the heap's modulo its
`Reverse` inversion). -/
def c1Statement : Prop :=
  ∀ (opts : SortOptions) (a b : Line),
    (noTypedMode opts ∨
      typedVal opts (normKey opts a) = typedVal opts (normKey opts b)) →
    inMemLess opts a b = lexLt (normKey opts a) (normKey opts b) ∧
    heapLess opts a b =
      (if opts.reverse then !(lexLt (normKey opts a) (normKey opts b))
       else lexLt (normKey opts a) (normKey opts b))

/-- claim C3 as stated: with unique enabled, the in-memory sorter keeps
exactly the first member of each maximal group of Comparator-equal
(tied) lines of the sorted sequence, before reversal, and the k-way
merge emits the greedy tie-collapse of the merge stream. -/
def c3Statement : Prop :=
  ∀ (opts : SortOptions) (lines : List Line) (runs : List (List Line)),
    opts.unique = true →
    sortInMemory opts lines =
      (if opts.reverse then
        (collapseBy (tieLine opts) (stableSort opts lines)).reverse
      else collapseBy (tieLine opts) (stableSort opts lines)) ∧
    mergeFilesModel opts runs =
      collapseBy (tieLine opts) (mergeEntries opts (seedEntries runs))

/-- claim C9 as stated: sorted output is a fixed point of the sort for
every configuration. -/
def c9Statement : Prop :=
  ∀ (opts : SortOptions) (lines : List Line),
    sortInMemory opts (sortInMemory opts lines) = sortInMemory opts lines

/-! ### Order-theoretic facts about the comparators -/

theorem lexLt_asymm : ∀ {a b : Line}, lexLt a b = true → lexLt b a = false := by
  intro a
  induction a with
  | nil =>
    intro b h
    cases b with
    | nil => simp [lexLt] at h
    | cons y ys => simp [lexLt]
  | cons x xs ih =>
    intro b h
    cases b with
    | nil => simp [lexLt] at h
    | cons y ys =>
      simp only [lexLt] at h ⊢
      by_cases hxy : x < y
      · simp [hxy, asymm hxy]
      · by_cases hyx : y < x
        · simp [hxy, hyx] at h
        · simp only [hxy, hyx, if_false] at h ⊢
          exact ih h

theorem lexLt_trans : ∀ {a b c : Line},
    lexLt a b = true → lexLt b c = true → lexLt a c = true := by
  intro a
  induction a with
  | nil =>
    intro b c h1 h2
    cases b with
    | nil => simp [lexLt] at h1
    | cons y ys =>
      cases c with
      | nil => simp [lexLt] at h2
      | cons z zs => simp [lexLt]
  | cons x xs ih =>
    intro b c h1 h2
    cases b with
    | nil => simp [lexLt] at h1
    | cons y ys =>
      cases c with
      | nil => simp [lexLt] at h2
      | cons z zs =>
        simp only [lexLt] at h1 h2 ⊢
        by_cases hxy : x < y
        · by_cases hyz : y < z
          · simp [lt_trans hxy hyz]
          · by_cases hzy : z < y
            · simp [hyz, hzy] at h2
            · have : y = z := le_antisymm (not_lt.mp hzy) (not_lt.mp hyz)
              subst this
              simp [hxy]
        · by_cases hyx : y < x
          · simp [hxy, hyx] at h1
          · have hxyeq : x = y := le_antisymm (not_lt.mp hyx) (not_lt.mp hxy)
            subst hxyeq
            rw [if_neg hxy, if_neg hxy] at h1
            by_cases hyz : x < z
            · simp [hyz]
            · by_cases hzy : z < x
              · simp [hyz, hzy] at h2
              · rw [if_neg hyz, if_neg hzy] at h2
                rw [if_neg hyz, if_neg hzy]
                exact ih h1 h2

theorem lexLt_eq_of_not : ∀ {a b : Line},
    lexLt a b = false → lexLt b a = false → a = b := by
  intro a
  induction a with
  | nil =>
    intro b h1 _
    cases b with
    | nil => rfl
    | cons y ys => simp [lexLt] at h1
  | cons x xs ih =>
    intro b h1 h2
    cases b with
    | nil => simp [lexLt] at h2
    | cons y ys =>
      simp only [lexLt] at h1 h2
      by_cases hxy : x < y
      · simp [hxy] at h1
      · by_cases hyx : y < x
        · simp [hyx, asymm hyx] at h2
        · have hxyeq : x = y := le_antisymm (not_lt.mp hyx) (not_lt.mp hxy)
          subst hxyeq
          rw [if_neg hxy, if_neg hxy] at h1
          rw [if_neg hxy, if_neg hxy] at h2
          rw [ih h1 h2]

theorem inMemLess_eq_keyLt (opts : SortOptions) (x y : Line) :
    inMemLess opts x y = keyLt opts (normKey opts x) (normKey opts y) := by
  unfold inMemLess keyLt typedVal
  by_cases hh : opts.human
  · simp only [hh, if_pos]
    by_cases he : humanValue (normKey opts x) = humanValue (normKey opts y)
    · simp [he]
    · simp [he, ne_eq]
  · by_cases hm : opts.month
    · simp only [hh, hm, if_pos, if_neg, Bool.false_eq_true, not_false_iff]
      by_cases he : monthValue (normKey opts x) = monthValue (normKey opts y)
      · simp [he]
      · have hlt : ((monthValue (normKey opts x) : ℚ) < (monthValue (normKey opts y) : ℚ))
            ↔ monthValue (normKey opts x) < monthValue (normKey opts y) := by
          exact_mod_cast Iff.rfl
        have hne : ¬ ((monthValue (normKey opts x) : ℚ) = (monthValue (normKey opts y) : ℚ)) := by
          exact_mod_cast he
        simp [he, hne, hlt]
    · by_cases hn : opts.numeric
      · simp only [hh, hm, hn, if_pos, if_neg, Bool.false_eq_true, not_false_iff]
        by_cases he : numericValue (normKey opts x) = numericValue (normKey opts y)
        · simp [he]
        · simp [he, ne_eq]
      · simp [hh, hm, hn]

theorem keyLt_asymm {opts : SortOptions} {a b : Line}
    (h : keyLt opts a b = true) : keyLt opts b a = false := by
  simp only [keyLt, Bool.or_eq_true, Bool.and_eq_true, decide_eq_true_eq] at h ⊢
  rcases h with h | ⟨he, hl⟩
  · simp only [Bool.or_eq_false_iff, Bool.and_eq_false_iff, decide_eq_false_iff_not]
    exact ⟨not_lt.mpr (le_of_lt h), Or.inl (by intro hc; exact absurd hc (ne_of_gt h))⟩
  · simp only [Bool.or_eq_false_iff, Bool.and_eq_false_iff, decide_eq_false_iff_not]
    exact ⟨by rw [he]; exact lt_irrefl _, Or.inr (lexLt_asymm hl)⟩

theorem keyLt_trans {opts : SortOptions} {a b c : Line}
    (h1 : keyLt opts a b = true) (h2 : keyLt opts b c = true) :
    keyLt opts a c = true := by
  simp only [keyLt, Bool.or_eq_true, Bool.and_eq_true, decide_eq_true_eq] at h1 h2 ⊢
  rcases h1 with h1 | ⟨he1, hl1⟩
  · rcases h2 with h2 | ⟨he2, _⟩
    · exact Or.inl (lt_trans h1 h2)
    · exact Or.inl (he2 ▸ h1)
  · rcases h2 with h2 | ⟨he2, hl2⟩
    · exact Or.inl (he1 ▸ h2)
    · exact Or.inr ⟨he1.trans he2, lexLt_trans hl1 hl2⟩

theorem keyLt_conn {opts : SortOptions} {a b : Line}
    (h1 : keyLt opts a b = false) (h2 : keyLt opts b a = false) :
    typedVal opts a = typedVal opts b ∧ a = b := by
  simp only [keyLt, Bool.or_eq_false_iff, Bool.and_eq_false_iff,
    decide_eq_false_iff_not] at h1 h2
  have he : typedVal opts a = typedVal opts b :=
    le_antisymm (not_lt.mp h2.1) (not_lt.mp h1.1)
  refine ⟨he, ?_⟩
  rcases h1.2 with h | h
  · exact absurd he h
  · rcases h2.2 with h2' | h2'
    · exact absurd he.symm h2'
    · exact lexLt_eq_of_not h h2'

theorem inMemLess_asymm {opts : SortOptions} {x y : Line}
    (h : inMemLess opts x y = true) : inMemLess opts y x = false := by
  rw [inMemLess_eq_keyLt] at h ⊢
  exact keyLt_asymm h

theorem inMemLess_trans {opts : SortOptions} {x y z : Line}
    (h1 : inMemLess opts x y = true) (h2 : inMemLess opts y z = true) :
    inMemLess opts x z = true := by
  rw [inMemLess_eq_keyLt] at h1 h2 ⊢
  exact keyLt_trans h1 h2

theorem inMemLess_key_eq {opts : SortOptions} {x y : Line}
    (h1 : inMemLess opts x y = false) (h2 : inMemLess opts y x = false) :
    normKey opts x = normKey opts y := by
  rw [inMemLess_eq_keyLt] at h1 h2
  exact (keyLt_conn h1 h2).2

theorem sortLe_total (opts : SortOptions) (x y : Line) :
    (sortLe opts x y || sortLe opts y x) = true := by
  unfold sortLe
  by_cases h : inMemLess opts y x = true
  · simp [inMemLess_asymm h]
  · simp [Bool.not_eq_true] at h
    simp [h]

theorem sortLe_trans (opts : SortOptions) (x y z : Line)
    (h1 : sortLe opts x y = true) (h2 : sortLe opts y z = true) :
    sortLe opts x z = true := by
  unfold sortLe at *
  simp only [Bool.not_eq_true'] at h1 h2 ⊢
  rw [inMemLess_eq_keyLt] at h1 h2 ⊢
  by_cases hzx : keyLt opts (normKey opts z) (normKey opts x) = true
  · exfalso
    by_cases hyz : keyLt opts (normKey opts y) (normKey opts z) = true
    · exact absurd (keyLt_trans hyz hzx) (by simp [h1])
    · have hk := (keyLt_conn h2 (by simpa using hyz)).2
      rw [hk] at hzx
      exact absurd hzx (by simp [h1])
  · simpa using hzx

/-! ### The uniqueness-equivalence is an equivalence relation -/

theorem equivalent_refl (opts : SortOptions) (x : Line) :
    equivalentLines opts x x = true := by
  unfold equivalentLines
  by_cases hh : opts.human
  · simp [hh]
  · by_cases hm : opts.month
    · simp [hh, hm]
    · by_cases hn : opts.numeric
      · simp [hh, hm, hn]
      · simp [hh, hm, hn]

theorem equivalent_symm {opts : SortOptions} {x y : Line}
    (h : equivalentLines opts x y = true) : equivalentLines opts y x = true := by
  unfold equivalentLines at *
  by_cases hh : opts.human
  · simp [hh] at h ⊢; exact h.symm
  · by_cases hm : opts.month
    · simp [hh, hm] at h ⊢; omega
    · by_cases hn : opts.numeric
      · simp [hh, hm, hn] at h ⊢; exact h.symm
      · simp [hh, hm, hn] at h ⊢; exact h.symm

theorem equivalent_trans {opts : SortOptions} {x y z : Line}
    (h1 : equivalentLines opts x y = true) (h2 : equivalentLines opts y z = true) :
    equivalentLines opts x z = true := by
  unfold equivalentLines at *
  by_cases hh : opts.human
  · simp [hh] at h1 h2 ⊢; exact h1.trans h2
  · by_cases hm : opts.month
    · simp [hh, hm] at h1 h2 ⊢; omega
    · by_cases hn : opts.numeric
      · simp [hh, hm, hn] at h1 h2 ⊢; exact h1.trans h2
      · simp [hh, hm, hn] at h1 h2 ⊢; exact h1.trans h2

theorem equivalent_of_key_eq {opts : SortOptions} {x y : Line}
    (h : normKey opts x = normKey opts y) : equivalentLines opts x y = true := by
  unfold equivalentLines
  rw [h]
  by_cases hh : opts.human
  · simp [hh]
  · by_cases hm : opts.month
    · simp [hh, hm]
    · by_cases hn : opts.numeric
      · simp [hh, hm, hn]
      · simp [hh, hm, hn]

/-- comparator ties are equivalent (the converse fails in typed modes). -/
theorem tie_equivalent {opts : SortOptions} {x y : Line}
    (h1 : inMemLess opts x y = false) (h2 : inMemLess opts y x = false) :
    equivalentLines opts x y = true :=
  equivalent_of_key_eq (inMemLess_key_eq h1 h2)

/-! ### Collapse of equivalence groups -/

theorem uniqueGo_eq_collapseGoBy (opts : SortOptions) :
    ∀ (l : List Line) (prev last : Line),
      equivalentLines opts last prev = true →
      uniqueGo opts prev l = collapseGoBy (equivalentLines opts) last l := by
  intro l
  induction l with
  | nil => intro prev last _; rfl
  | cons y t ih =>
    intro prev last hlp
    simp only [uniqueGo, collapseGoBy]
    by_cases hpy : equivalentLines opts prev y = true
    · have hly : equivalentLines opts last y = true := equivalent_trans hlp hpy
      simp only [hpy, hly, if_pos]
      exact ih y last hly
    · have hly : equivalentLines opts last y = false := by
        by_contra hc
        simp only [Bool.not_eq_false] at hc
        exact hpy (equivalent_trans (equivalent_symm hlp) hc)
      simp only [hpy, hly, Bool.false_eq_true, if_neg, not_false_iff]
      rw [ih y y (equivalent_refl opts y)]

theorem uniquePass_eq_collapseBy (opts : SortOptions) (l : List Line) :
    uniquePass opts l = collapseBy (equivalentLines opts) l := by
  cases l with
  | nil => rfl
  | cons x rest =>
    simp only [uniquePass, collapseBy]
    rw [uniqueGo_eq_collapseGoBy opts rest x x (equivalent_refl opts x)]

theorem collapseGoBy_chain (eqb : Line → Line → Bool) :
    ∀ (l : List Line) (last : Line),
      List.Chain' (fun a b => eqb a b = false) (last :: collapseGoBy eqb last l) := by
  intro l
  induction l with
  | nil => intro last; simp [collapseGoBy]
  | cons y t ih =>
    intro last
    simp only [collapseGoBy]
    by_cases h : eqb last y = true
    · simp only [h, if_pos]
      exact ih last
    · simp only [h, Bool.false_eq_true, if_neg, not_false_iff]
      exact List.Chain'.cons (by simpa using h) (ih y)

theorem collapseBy_chain (eqb : Line → Line → Bool) (l : List Line) :
    List.Chain' (fun a b => eqb a b = false) (collapseBy eqb l) := by
  cases l with
  | nil => simp [collapseBy]
  | cons x rest => exact collapseGoBy_chain eqb rest x

theorem uniqueGo_sublist (opts : SortOptions) :
    ∀ (l : List Line) (prev : Line), (uniqueGo opts prev l).Sublist l := by
  intro l
  induction l with
  | nil => intro prev; simp [uniqueGo]
  | cons y t ih =>
    intro prev
    simp only [uniqueGo]
    by_cases h : equivalentLines opts prev y = true
    · simp only [h, if_pos]
      exact (ih y).trans (List.sublist_cons_self y t)
    · simp only [h, Bool.false_eq_true, if_neg, not_false_iff]
      exact (ih y).cons₂ y

theorem uniquePass_sublist (opts : SortOptions) (l : List Line) :
    (uniquePass opts l).Sublist l := by
  cases l with
  | nil => simp [uniquePass]
  | cons x rest => exact (uniqueGo_sublist opts rest x).cons₂ x

theorem uniqueGo_of_chain (opts : SortOptions) :
    ∀ (l : List Line) (prev : Line),
      List.Chain' (fun a b => equivalentLines opts a b = false) (prev :: l) →
      uniqueGo opts prev l = l := by
  intro l
  induction l with
  | nil => intro prev _; rfl
  | cons y t ih =>
    intro prev hch
    rw [List.chain'_cons] at hch
    simp only [uniqueGo, hch.1, Bool.false_eq_true, if_neg, not_false_iff]
    rw [ih y hch.2]

theorem uniquePass_of_chain (opts : SortOptions) (l : List Line)
    (h : List.Chain' (fun a b => equivalentLines opts a b = false) l) :
    uniquePass opts l = l := by
  cases l with
  | nil => rfl
  | cons x rest =>
    simp only [uniquePass]
    rw [uniqueGo_of_chain opts rest x h]

/-! ### Uniqueness of the sorted arrangement of a tie-free list -/

theorem eq_of_sorted_perm (opts : SortOptions) :
    ∀ {A B : List Line}, List.Perm B A →
      List.Pairwise (fun a b => inMemLess opts a b = true) A →
      List.Pairwise (fun a b => sortLe opts a b = true) B → B = A := by
  intro A
  induction A with
  | nil =>
    intro B hperm _ _
    exact List.Perm.eq_nil hperm
  | cons a A ih =>
    intro B hperm hA hB
    cases B with
    | nil => exact absurd hperm.symm (by simp)
    | cons b B =>
      rw [List.pairwise_cons] at hA hB
      have hba : b = a := by
        have hbmem : b ∈ a :: A := hperm.subset (List.mem_cons_self b B)
        rcases List.mem_cons.mp hbmem with h | h
        · exact h
        · have hless : inMemLess opts a b = true := hA.1 b h
          have hamem : a ∈ b :: B := hperm.symm.subset (List.mem_cons_self a A)
          rcases List.mem_cons.mp hamem with h2 | h2
          · exact h2.symm
          · have hle : sortLe opts b a = true := hB.1 a h2
            unfold sortLe at hle
            simp [hless] at hle
      subst hba
      rw [ih (hperm.cons_inv) hA.2 hB.2]

/-- the stable sort is sorted for `sortLe`. -/
theorem stableSort_sorted (opts : SortOptions) (l : List Line) :
    List.Pairwise (fun a b => sortLe opts a b = true) (stableSort opts l) := by
  haveI : IsTotal Line (fun a b => sortLe opts a b = true) := ⟨fun a b => by
    have h := sortLe_total opts a b
    simp only [Bool.or_eq_true] at h
    exact h⟩
  haveI : IsTrans Line (fun a b => sortLe opts a b = true) :=
    ⟨fun a b c h1 h2 => sortLe_trans opts a b c h1 h2⟩
  exact List.sorted_insertionSort _ l

theorem stableSort_of_sorted {opts : SortOptions} {l : List Line}
    (h : List.Pairwise (fun a b => sortLe opts a b = true) l) :
    stableSort opts l = l :=
  List.Sorted.insertionSort_eq h

theorem stableSort_perm (opts : SortOptions) (l : List Line) :
    List.Perm (stableSort opts l) l :=
  List.perm_insertionSort _ l

theorem chain'_combine {R S T : Line → Line → Prop}
    (h : ∀ a b, R a b → S a b → T a b) :
    ∀ {l : List Line}, List.Chain' R l → List.Chain' S l → List.Chain' T l := by
  intro l
  induction l with
  | nil => intro _ _; simp
  | cons x rest ih =>
    intro hR hS
    cases rest with
    | nil => simp
    | cons y t =>
      rw [List.chain'_cons] at hR hS ⊢
      exact ⟨h x y hR.1 hS.1, ih hR.2 hS.2⟩

/-! ### Structure of the merge loops -/

theorem advanceEntries_content (p : (Line × List Line) × List (Line × List Line)) :
    entriesContent (advanceEntries p) = p.1.2 ++ entriesContent p.2 := by
  rcases p with ⟨⟨f, rest⟩, others⟩
  cases rest with
  | nil => simp [advanceEntries, entriesContent]
  | cons l t => simp [advanceEntries, entriesContent]

/-- without uniqueness filtering, `mergeFiles` and `mergeChunk` run the
same loop. -/
theorem mergeLoop_false (opts : SortOptions) :
    ∀ (w : Nat) (entries : List (Line × List Line)), entriesWeight entries = w →
      ∀ (first : Bool) (lastLine : Line),
        mergeLoop opts false first lastLine entries = mergeEntries opts entries := by
  intro w
  induction w using Nat.strong_induction_on with
  | _ w ih =>
    intro entries hw first lastLine
    cases entries with
    | nil => rw [mergeLoop, mergeEntries]
    | cons e rest =>
      rw [mergeLoop, mergeEntries]
      simp only [Bool.false_eq_true, if_neg, not_false_iff]
      rw [ih (entriesWeight (advanceEntries (extractMin opts e rest)))
        (hw ▸ advance_extract_weight_lt opts e rest) _ rfl first lastLine]

/-- with uniqueness filtering, the merge loop emits exactly the greedy
equivalence-collapse of the unfiltered merge stream. -/
theorem mergeLoop_true (opts : SortOptions) :
    ∀ (w : Nat) (entries : List (Line × List Line)), entriesWeight entries = w →
      (∀ lastLine, mergeLoop opts true false lastLine entries =
          collapseGoBy (equivalentLines opts) lastLine (mergeEntries opts entries)) ∧
      (∀ lastLine, mergeLoop opts true true lastLine entries =
          collapseBy (equivalentLines opts) (mergeEntries opts entries)) := by
  intro w
  induction w using Nat.strong_induction_on with
  | _ w ih =>
    intro entries hw
    cases entries with
    | nil =>
      constructor
      · intro lastLine; rw [mergeLoop, mergeEntries]; rfl
      · intro lastLine; rw [mergeLoop, mergeEntries]; rfl
    | cons e rest =>
      have hlt := hw ▸ advance_extract_weight_lt opts e rest
      have ihn := ih (entriesWeight (advanceEntries (extractMin opts e rest))) hlt _ rfl
      constructor
      · intro lastLine
        rw [mergeLoop, mergeEntries]
        simp only [if_pos, Bool.false_eq_true, if_neg, not_false_iff]
        rw [collapseGoBy]
        by_cases heq :
            equivalentLines opts lastLine (extractMin opts e rest).1.1 = true
        · simp only [heq, if_pos]
          exact ihn.1 lastLine
        · simp only [heq, Bool.false_eq_true, if_neg, not_false_iff]
          rw [ihn.1 (extractMin opts e rest).1.1]
      · intro lastLine
        rw [mergeLoop, mergeEntries]
        simp only [if_pos]
        rw [collapseBy]
        rw [ihn.1 (extractMin opts e rest).1.1]

/-- the unfiltered merge stream carries exactly the lines of its entry
list (in particular nothing is lost or duplicated). -/
theorem mergeEntries_perm (opts : SortOptions) :
    ∀ (w : Nat) (entries : List (Line × List Line)), entriesWeight entries = w →
      List.Perm (mergeEntries opts entries) (entriesContent entries) := by
  intro w
  induction w using Nat.strong_induction_on with
  | _ w ih =>
    intro entries hw
    cases entries with
    | nil => rw [mergeEntries]; simp [entriesContent]
    | cons e rest =>
      rw [mergeEntries]
      have hnext := ih (entriesWeight (advanceEntries (extractMin opts e rest)))
        (hw ▸ advance_extract_weight_lt opts e rest) _ rfl
      rw [advanceEntries_content] at hnext
      have step1 : List.Perm
          ((extractMin opts e rest).1.1 ::
            mergeEntries opts (advanceEntries (extractMin opts e rest)))
          ((extractMin opts e rest).1.1 ::
            ((extractMin opts e rest).1.2 ++ entriesContent (extractMin opts e rest).2)) :=
        hnext.cons _
      have step2 : ((extractMin opts e rest).1.1 ::
            ((extractMin opts e rest).1.2 ++ entriesContent (extractMin opts e rest).2)) =
          entriesContent ((extractMin opts e rest).1 :: (extractMin opts e rest).2) := by
        simp [entriesContent]
      have step3 : List.Perm
          (entriesContent ((extractMin opts e rest).1 :: (extractMin opts e rest).2))
          (entriesContent (e :: rest)) :=
        ((extractMin_perm opts e rest).map _).flatten
      exact step1.trans (step2 ▸ step3)

theorem seedEntries_content (runs : List (List Line)) :
    entriesContent (seedEntries runs) = runs.flatten := by
  induction runs with
  | nil => rfl
  | cons r rest ih =>
    cases r with
    | nil => simpa [seedEntries, entriesContent] using ih
    | cons l t => simpa [seedEntries, entriesContent] using ih

theorem mergeChunkModel_perm (opts : SortOptions) (chunk : List (List Line)) :
    List.Perm (mergeChunkModel opts chunk) chunk.flatten := by
  have := mergeEntries_perm opts _ (seedEntries chunk) rfl
  rwa [seedEntries_content] at this

theorem chunkRuns_flatten (l : List (List Line)) : (chunkRuns l).flatten = l := by
  induction l using chunkRuns.induct with
  | case1 => rw [chunkRuns]; rfl
  | case2 f fs ih =>
    rw [chunkRuns]
    simp only [List.flatten_cons, ih, List.take_append_drop]

theorem flatten_map_perm {f g : List (List Line) → List Line}
    (l : List (List (List Line))) (h : ∀ c ∈ l, List.Perm (f c) (g c)) :
    List.Perm (l.map f).flatten (l.map g).flatten := by
  induction l with
  | nil => rfl
  | cons c rest ih =>
    simp only [List.map_cons, List.flatten_cons]
    exact (h c (List.mem_cons_self c rest)).append
      (ih (fun x hx => h x (List.mem_cons_of_mem c hx)))

theorem reduceLoop_flatten_perm (opts : SortOptions) (files : List (List Line)) :
    List.Perm (reduceLoop opts files).flatten files.flatten := by
  induction files using reduceLoop.induct opts with
  | case1 files h => rw [reduceLoop, if_pos h]
  | case2 files h ih =>
    rw [reduceLoop, if_neg h]
    refine ih.trans ?_
    have h1 : List.Perm ((chunkRuns files).map (mergeChunkModel opts)).flatten
        ((chunkRuns files).map List.flatten).flatten :=
      flatten_map_perm (chunkRuns files)
        (fun c _ => mergeChunkModel_perm opts c)
    rw [← List.flatten_flatten, chunkRuns_flatten] at h1
    exact h1

/-! ### Content preservation of ingestion and the external pipeline -/

theorem sortInMemory_perm (opts : SortOptions) (h : opts.unique = false)
    (l : List Line) : List.Perm (sortInMemory opts l) l := by
  unfold sortInMemory
  rw [h]
  by_cases hr : opts.reverse = true
  · simp only [hr, Bool.false_eq_true, if_neg, not_false_iff, if_pos, if_true]
    exact (List.reverse_perm _).trans (stableSort_perm opts l)
  · simp only [Bool.not_eq_true] at hr
    simp only [hr, Bool.false_eq_true, if_neg, not_false_iff]
    exact stableSort_perm opts l

theorem extFold_content (maxBytes : Nat) (opts : SortOptions)
    (h : opts.unique = false) :
    ∀ (input : List Line) (st : ExtState),
      List.Perm ((input.foldl (extStepB maxBytes opts) st).runs.flatten ++
          (input.foldl (extStepB maxBytes opts) st).buffer)
        (st.runs.flatten ++ st.buffer ++ input) := by
  intro input
  induction input with
  | nil => intro st; simp
  | cons l t ih =>
    intro st
    rw [List.foldl_cons]
    refine (ih (extStepB maxBytes opts st l)).trans ?_
    unfold extStepB
    by_cases hc : maxBytes < st.memoryUsed + lineSize l ∧ st.buffer ≠ []
    · rw [if_pos hc]
      simp only [List.flatten_append, List.flatten_cons, List.flatten_nil,
        List.append_nil, List.append_assoc, List.singleton_append]
      exact List.Perm.append_left _
        ((sortInMemory_perm opts h st.buffer).append_right (l :: t))
    · rw [if_neg hc]
      simp [List.append_assoc]

theorem extRunsB_flatten_perm (maxBytes : Nat) (opts : SortOptions)
    (h : opts.unique = false) (init input : List Line) :
    List.Perm (extRunsB maxBytes opts init input).flatten (init ++ input) := by
  unfold extRunsB extIngestB
  have hf := extFold_content maxBytes opts h input ⟨init, estimateMemorySize init, []⟩
  simp only [List.flatten_nil, List.nil_append] at hf
  by_cases hb : (input.foldl (extStepB maxBytes opts)
      ⟨init, estimateMemorySize init, []⟩).buffer = []
  · simp only [hb, if_pos]
    rw [hb, List.append_nil] at hf
    exact hf
  · simp only [hb, Bool.false_eq_true, if_neg, not_false_iff,
      List.flatten_append, List.flatten_cons, List.flatten_nil, List.append_nil]
    refine List.Perm.trans ?_ hf
    exact List.Perm.append_left _ (sortInMemory_perm opts h _)

theorem externalSortOutB_perm (maxBytes : Nat) (opts : SortOptions)
    (h : opts.unique = false) (init input : List Line) :
    List.Perm (externalSortOutB maxBytes opts init input) (init ++ input) := by
  unfold externalSortOutB
  have hr := extRunsB_flatten_perm maxBytes opts h init input
  by_cases h0 : (extRunsB maxBytes opts init input).length = 0
  · simp only [h0, if_pos]
    rw [List.length_eq_zero.mp h0] at hr
    simpa using hr
  · by_cases h1 : (extRunsB maxBytes opts init input).length = 1
    · simp only [h0, h1, if_neg, not_false_iff, if_pos]
      obtain ⟨r, hrr⟩ := List.length_eq_one.mp h1
      rw [hrr] at hr ⊢
      simpa using hr
    · simp only [h0, h1, if_neg, not_false_iff]
      unfold mergeFilesModel
      rw [h]
      rw [mergeLoop_false opts _ _ rfl]
      have hm := mergeEntries_perm opts _
        (seedEntries (reduceLoop opts (extRunsB maxBytes opts init input))) rfl
      rw [seedEntries_content] at hm
      exact hm.trans ((reduceLoop_flatten_perm opts _).trans hr)

/-! ### The memory budget invariant -/

theorem est_append (a b : List Line) :
    estimateMemorySize (a ++ b) = estimateMemorySize a + estimateMemorySize b := by
  simp [estimateMemorySize]

theorem est_dropLast_le (l : List Line) :
    estimateMemorySize l.dropLast ≤ estimateMemorySize l := by
  induction l using List.reverseRecOn with
  | nil => simp
  | append_singleton l a ih =>
    rw [List.dropLast_concat, est_append]
    omega

theorem extStepB_budgetInv (maxBytes : Nat) (opts : SortOptions) (st : ExtState)
    (line : Line) (h : budgetInv maxBytes st) :
    budgetInv maxBytes (extStepB maxBytes opts st line) := by
  unfold budgetInv extStepB at *
  by_cases hc : maxBytes < st.memoryUsed + lineSize line ∧ st.buffer ≠ []
  · rw [if_pos hc]
    constructor
    · simp [estimateMemorySize]
    · simp [estimateMemorySize]
  · rw [if_neg hc]
    constructor
    · rw [est_append, ← h.1]
      simp [estimateMemorySize]
    · rw [List.dropLast_concat]
      rcases not_and_or.mp hc with hA | hB
      · push_neg at hA
        omega
      · push_neg at hB
        simp [hB, estimateMemorySize]

theorem scanl_all {f : ExtState → Line → ExtState} {P : ExtState → Prop}
    (hstep : ∀ s a, P s → P (f s a)) :
    ∀ (l : List Line) (init : ExtState), P init →
      ∀ st ∈ List.scanl f init l, P st := by
  intro l
  induction l with
  | nil =>
    intro init h st hst
    simp only [List.scanl, List.mem_singleton] at hst
    rwa [hst]
  | cons a t ih =>
    intro init h st hst
    rw [List.scanl_cons] at hst
    rcases List.mem_append.mp hst with h1 | h1
    · rw [List.mem_singleton.mp h1]; exact h
    · exact ih (f init a) (hstep init a h) st h1

theorem readLinesAuxB_dropLast (maxBytes : Nat) (errFlag : Bool) :
    ∀ (rest acc : List Line), estimateMemorySize acc ≤ maxBytes →
      estimateMemorySize
        (readLinesAuxB maxBytes errFlag rest (estimateMemorySize acc) acc).1.dropLast
        ≤ maxBytes := by
  intro rest
  induction rest with
  | nil =>
    intro acc hle
    unfold readLinesAuxB
    by_cases he : errFlag = true
    · simp only [he, if_pos, if_true]
      simp [estimateMemorySize]
    · simp only [Bool.not_eq_true] at he
      simp only [he, Bool.false_eq_true, if_neg, not_false_iff]
      exact le_trans (est_dropLast_le acc) hle
  | cons l rest ih =>
    intro acc hle
    unfold readLinesAuxB
    by_cases hc : maxBytes < estimateMemorySize acc + lineSize l
    · rw [if_pos hc]
      rw [List.dropLast_concat]
      exact hle
    · rw [if_neg hc]
      have hrw : estimateMemorySize acc + lineSize l =
          estimateMemorySize (acc ++ [l]) := by
        rw [est_append]; simp [estimateMemorySize]
      rw [hrw]
      exact ih (acc ++ [l]) (by omega)

/-! ### Characterization of `ReadLinesWithLimit` -/

theorem readLinesAuxB_spec (maxBytes : Nat) (errFlag : Bool) :
    ∀ (rest acc : List Line),
      readLinesAuxB maxBytes errFlag rest (estimateMemorySize acc) acc =
        match (List.range rest.length).find?
            (fun k => decide (maxBytes <
              estimateMemorySize (acc ++ rest.take (k + 1)))) with
        | some k => (acc ++ rest.take (k + 1), some ReadErr.tooLarge)
        | none => if errFlag then ([], some ReadErr.scanErr) else (acc ++ rest, none) := by
  intro rest
  induction rest with
  | nil =>
    intro acc
    simp [readLinesAuxB]
  | cons l rest ih =>
    intro acc
    unfold readLinesAuxB
    rw [List.length_cons, List.range_succ_eq_map, List.find?_cons]
    have htake0 : (l :: rest).take 1 = [l] := by simp
    by_cases hc : maxBytes < estimateMemorySize (acc ++ [l])
    · have hp : (decide (maxBytes <
          estimateMemorySize (acc ++ (l :: rest).take (0 + 1)))) = true := by
        simp only [Nat.zero_add, htake0]
        exact decide_eq_true hc
      rw [hp]
      rw [if_pos (by rw [est_append] at hc; simpa [estimateMemorySize] using hc)]
      simp [htake0]
    · have hp : (decide (maxBytes <
          estimateMemorySize (acc ++ (l :: rest).take (0 + 1)))) = false := by
        simp only [Nat.zero_add, htake0]
        exact decide_eq_false hc
      rw [hp]
      rw [if_neg (by rw [est_append] at hc; simpa [estimateMemorySize] using hc)]
      have hrw : estimateMemorySize acc + lineSize l =
          estimateMemorySize (acc ++ [l]) := by
        rw [est_append]; simp [estimateMemorySize]
      rw [hrw, ih (acc ++ [l])]
      rw [List.find?_map]
      have hpred : ((fun k => decide (maxBytes <
            estimateMemorySize (acc ++ (l :: rest).take (k + 1)))) ∘ Nat.succ) =
          (fun k => decide (maxBytes <
            estimateMemorySize ((acc ++ [l]) ++ rest.take (k + 1)))) := by
        funext k
        simp [List.take_succ_cons, List.append_assoc]
      rw [hpred]
      cases hfind : (List.range rest.length).find?
          (fun k => decide (maxBytes <
            estimateMemorySize ((acc ++ [l]) ++ rest.take (k + 1)))) with
      | none => simp
      | some k => simp [List.take_succ_cons, List.append_assoc]

/-! ### The check-mode scan -/

theorem isUnordered_eq_keyLt (opts : SortOptions) (prev curr : Line) :
    isUnorderedModel prev curr opts =
      (if opts.reverse then keyLt opts prev curr else keyLt opts curr prev) := by
  unfold isUnorderedModel keyLt typedVal
  by_cases hh : opts.human
  · simp only [hh, if_pos, if_true]
    by_cases he : humanValue prev = humanValue curr
    · simp [he, lt_irrefl]
    · have hsymm : ¬ humanValue curr = humanValue prev := fun h => he h.symm
      by_cases hr : opts.reverse = true
      · simp [he, hsymm, hr]
      · simp only [Bool.not_eq_true] at hr
        simp [he, hsymm, hr]
  · by_cases hm : opts.month
    · simp only [hh, hm, Bool.false_eq_true, if_neg, not_false_iff, if_pos, if_true]
      by_cases he : monthValue prev = monthValue curr
      · have hc : ((monthValue prev : ℚ) = (monthValue curr : ℚ)) := by exact_mod_cast he
        simp [he, hc, lt_irrefl]
      · have hc : ¬ ((monthValue prev : ℚ) = (monthValue curr : ℚ)) := by exact_mod_cast he
        have hcsymm : ¬ ((monthValue curr : ℚ) = (monthValue prev : ℚ)) :=
          fun h => hc h.symm
        have hesymm : ¬ monthValue curr = monthValue prev := fun h => he h.symm
        have hlt1 : ((monthValue prev : ℚ) < (monthValue curr : ℚ))
            ↔ monthValue prev < monthValue curr := by exact_mod_cast Iff.rfl
        have hlt2 : ((monthValue curr : ℚ) < (monthValue prev : ℚ))
            ↔ monthValue curr < monthValue prev := by exact_mod_cast Iff.rfl
        by_cases hr : opts.reverse = true
        · simp [he, hr, hc, hcsymm, hesymm, hlt1, hlt2]
        · simp only [Bool.not_eq_true] at hr
          simp [he, hr, hc, hcsymm, hesymm, hlt1, hlt2]
    · by_cases hn : opts.numeric
      · simp only [hh, hm, hn, Bool.false_eq_true, if_neg, not_false_iff, if_pos, if_true]
        by_cases he : numericValue prev = numericValue curr
        · simp [he, lt_irrefl]
        · have hsymm : ¬ numericValue curr = numericValue prev := fun h => he h.symm
          by_cases hr : opts.reverse = true
          · simp [he, hsymm, hr]
          · simp only [Bool.not_eq_true] at hr
            simp [he, hsymm, hr]
      · simp only [hh, hm, hn, Bool.false_eq_true, if_neg, not_false_iff]
        by_cases hr : opts.reverse = true
        · simp [hr]
        · simp only [Bool.not_eq_true] at hr
          simp [hr]

theorem checkUnordered_eq_orderGt (opts : SortOptions) (a b : Line) :
    checkUnordered opts a b = orderGt opts a b := by
  unfold checkUnordered orderGt
  rw [isUnordered_eq_keyLt]
  rw [inMemLess_eq_keyLt, inMemLess_eq_keyLt]

theorem checkLoop_spec (opts : SortOptions) (source : Line) :
    ∀ (rest : List Line) (prev : Line) (n : Nat),
      checkLoop opts source prev rest n =
        (((prev :: rest).zip rest).findIdx? (fun p => orderGt opts p.1 p.2)).map
          (fun i => formatDisorder source (n + i) (rest.getD i [])) := by
  intro rest
  induction rest with
  | nil =>
    intro prev n
    simp [checkLoop]
  | cons curr rest ih =>
    intro prev n
    unfold checkLoop
    rw [checkUnordered_eq_orderGt]
    have hzip : (prev :: curr :: rest).zip (curr :: rest) =
        (prev, curr) :: (curr :: rest).zip rest := by simp [List.zip]
    rw [hzip, List.findIdx?_cons]
    by_cases hc : orderGt opts prev curr = true
    · simp [hc]
    · simp only [Bool.not_eq_true] at hc
      rw [hc]
      simp only [Bool.false_eq_true, if_neg, not_false_iff]
      rw [ih curr (n + 1), List.findIdx?_succ]
      cases hfind : ((curr :: rest).zip rest).findIdx?
          (fun p => orderGt opts p.1 p.2) with
      | none => simp
      | some i =>
        have : n + 1 + i = n + (i + 1) := by omega
        simp [this]

/-! ### Fan-in bounds -/

theorem chunkRuns_chunk_le (l : List (List Line)) :
    ∀ c ∈ chunkRuns l, c.length ≤ maxOpenFiles := by
  induction l using chunkRuns.induct with
  | case1 => intro c hc; rw [chunkRuns] at hc; simp at hc
  | case2 f fs ih =>
    intro c hc
    rw [chunkRuns] at hc
    rcases List.mem_cons.mp hc with h | h
    · rw [h]
      simp [List.length_take]
    · exact ih c h

theorem reduceLoop_length_le (opts : SortOptions) (files : List (List Line)) :
    (reduceLoop opts files).length ≤ maxOpenFiles := by
  induction files using reduceLoop.induct opts with
  | case1 files h => rw [reduceLoop, if_pos h]; exact h
  | case2 files h ih => rw [reduceLoop, if_neg h]; exact ih

theorem allChunkSizes_le (opts : SortOptions) (files : List (List Line)) :
    ∀ n ∈ allChunkSizes opts files, n ≤ maxOpenFiles := by
  induction files using allChunkSizes.induct opts with
  | case1 files h => intro n hn; rw [allChunkSizes, if_pos h] at hn; simp at hn
  | case2 files h ih =>
    intro n hn
    rw [allChunkSizes, if_neg h] at hn
    rcases List.mem_append.mp hn with h1 | h1
    · obtain ⟨c, hc, rfl⟩ := List.mem_map.mp h1
      exact chunkRuns_chunk_le files c hc
    · exact ih n h1

/-! ### Claims -/

/-- C1 (corrected).  The claim holds for the in-memory comparator: with
no typed mode active or with equal typed values, `SortInMemory`'s
closure is the byte-wise comparison of the normalized keys.  The merge
heap's comparator, however, falls back to a byte-wise comparison of the
raw lines (direction-adjusted by `Reverse`), not of the keys. -/
theorem claim_C1 : ∀ (opts : SortOptions) (a b : Line),
    (noTypedMode opts ∨
      typedVal opts (normKey opts a) = typedVal opts (normKey opts b)) →
    inMemLess opts a b = lexLt (normKey opts a) (normKey opts b) ∧
    heapLess opts a b = (if opts.reverse then !(lexLt a b) else lexLt a b) := by
  intro opts a b h
  have he : typedVal opts (normKey opts a) = typedVal opts (normKey opts b) := by
    rcases h with ⟨hh, hm, hn⟩ | he
    · simp [typedVal, hh, hm, hn]
    · exact he
  constructor
  · rw [inMemLess_eq_keyLt]
    unfold keyLt
    simp [he, lt_irrefl]
  · unfold heapLess
    unfold typedVal at he
    by_cases hh : opts.human
    · simp only [if_pos hh] at he
      simp [hh, he]
    · by_cases hm : opts.month
      · simp only [if_neg hh, if_pos hm] at he
        have hm2 : monthValue (normKey opts a) = monthValue (normKey opts b) := by
          exact_mod_cast he
        simp [hh, hm, hm2]
      · by_cases hn : opts.numeric
        · simp only [if_neg hh, if_neg hm, if_pos hn] at he
          simp [hh, hm, hn, he]
        · simp [hh, hm, hn]

theorem claim_C1_witness :
    (noTypedMode ⟨false, false, false, false, 2, false, false⟩ ∨
      typedVal ⟨false, false, false, false, 2, false, false⟩
          (normKey ⟨false, false, false, false, 2, false, false⟩ ['b', '\t', 'a']) =
        typedVal ⟨false, false, false, false, 2, false, false⟩
          (normKey ⟨false, false, false, false, 2, false, false⟩ ['a', '\t', 'b'])) ∧
    inMemLess ⟨false, false, false, false, 2, false, false⟩ ['b', '\t', 'a'] ['a', '\t', 'b'] =
      lexLt (normKey ⟨false, false, false, false, 2, false, false⟩ ['b', '\t', 'a'])
        (normKey ⟨false, false, false, false, 2, false, false⟩ ['a', '\t', 'b']) ∧
    heapLess ⟨false, false, false, false, 2, false, false⟩ ['b', '\t', 'a'] ['a', '\t', 'b'] =
      (if (⟨false, false, false, false, 2, false, false⟩ : SortOptions).reverse then
        !(lexLt ['b', '\t', 'a'] ['a', '\t', 'b'])
      else lexLt ['b', '\t', 'a'] ['a', '\t', 'b']) := by
  refine ⟨Or.inl ⟨rfl, rfl, rfl⟩, ?_⟩
  exact claim_C1 ⟨false, false, false, false, 2, false, false⟩
    ['b', '\t', 'a'] ['a', '\t', 'b'] (Or.inl ⟨rfl, rfl, rfl⟩)

/-- C1's counterexample: with key column 2 and no typed mode, the lines
`"b\ta"` and `"a\tb"` have keys `"a"` and `"b"`, so a key comparison
says the first line sorts before the second; the heap comparator
compares the raw lines instead and answers the opposite. -/
theorem claim_C1_counterexample : ¬ c1Statement := by
  intro h
  have := (h ⟨false, false, false, false, 2, false, false⟩
      ['b', '\t', 'a'] ['a', '\t', 'b'] (Or.inl ⟨rfl, rfl, rfl⟩)).2
  revert this
  decide

/-- C2 (code bug).  `ExternalSort` registers `defer cleanup(tempFiles)`
while `tempFiles` is nil; Go evaluates deferred arguments immediately,
so the deferred cleanup releases nothing.  Whenever ingestion produces
at most `maxOpenFiles` runs the fan-in loop never executes, and the
resource accounting shows every created temp file leaks: releases are 0
while creations equal the run count. -/
theorem claim_C2 : ∀ (maxBytes : Nat) (opts : SortOptions) (init input : List Line),
    (extRunsB maxBytes opts init input).length ≤ maxOpenFiles →
    extResourcesB maxBytes opts init input =
      ((extRunsB maxBytes opts init input).length, 0) := by
  intro maxBytes opts init input h
  unfold extResourcesB
  by_cases h0 : (extRunsB maxBytes opts init input).length = 0
  · simp [h0]
  · by_cases h1 : (extRunsB maxBytes opts init input).length = 1
    · simp [h0, h1]
    · simp only [h0, h1, if_neg, not_false_iff]
      rw [reduceResources, if_pos (by simpa [maxOpenFiles] using h)]
      simp

/-- concrete run of the bug: a 25-byte budget, two 4-character lines;
two runs are created and zero are released. -/
theorem claim_C2_witness :
    (extRunsB 25 ⟨false, false, false, false, 0, false, false⟩ []
        [List.replicate 4 'a', List.replicate 4 'b']).length ≤ maxOpenFiles ∧
    extResourcesB 25 ⟨false, false, false, false, 0, false, false⟩ []
        [List.replicate 4 'a', List.replicate 4 'b'] = (2, 0) := by
  refine ⟨by decide, ?_⟩
  rw [claim_C2 25 ⟨false, false, false, false, 0, false, false⟩ []
    [List.replicate 4 'a', List.replicate 4 'b'] (by decide)]
  decide

/-- C4 (code bug).  The binary-adjustment switch of `humanValue` has no
case for the `E` multiplier, so `"1Ei"` evaluates to 10^18 (the decimal
`E` scale) instead of 1024^6 = 2^60; the other `i` suffixes are
converted (`1Ki` = 1024, `1Mi` = 1024², `1Pi` = 2^50), and a plain
decimal suffix multiplies as specified (`2K` = 2000). -/
theorem claim_C4 :
    humanValue ['1', 'E', 'i'] = 10 ^ 18 ∧
    (10 : ℚ) ^ 18 ≠ 1024 ^ 6 ∧
    humanValue ['1', 'K', 'i'] = 1024 ∧
    humanValue ['1', 'M', 'i'] = 1024 ^ 2 ∧
    humanValue ['1', 'P', 'i'] = 2 ^ 50 ∧
    humanValue ['2', 'K'] = 2000 := by
  have h18 : humanValue ['1', 'E', 'i'] =
      (((1 : Nat) : ℚ) + ((0 : Nat) : ℚ) / 10 ^ (0 : Nat)) * 1000000000000000000 := rfl
  have hKi : humanValue ['1', 'K', 'i'] =
      (((1 : Nat) : ℚ) + ((0 : Nat) : ℚ) / 10 ^ (0 : Nat)) * 1024 := rfl
  have hMi : humanValue ['1', 'M', 'i'] =
      (((1 : Nat) : ℚ) + ((0 : Nat) : ℚ) / 10 ^ (0 : Nat)) * 1048576 := rfl
  have hPi : humanValue ['1', 'P', 'i'] =
      (((1 : Nat) : ℚ) + ((0 : Nat) : ℚ) / 10 ^ (0 : Nat)) * 1125899906842624 := rfl
  have hK : humanValue ['2', 'K'] =
      (((2 : Nat) : ℚ) + ((0 : Nat) : ℚ) / 10 ^ (0 : Nat)) * 1000 := rfl
  refine ⟨?_, by norm_num, ?_, ?_, ?_, ?_⟩
  · rw [h18]; norm_num
  · rw [hKi]; norm_num
  · rw [hMi]; norm_num
  · rw [hPi]; norm_num
  · rw [hK]; norm_num

/-- C3 (corrected).  With unique enabled the code collapses groups of
*equivalent* lines — equal typed value in a typed mode, equal
normalized key otherwise — not groups of Comparator-equal (tied) lines:
the in-memory sorter keeps the first member of each maximal equivalent
group of the sorted sequence (before reversal), and the k-way merge
emits the greedy equivalence-collapse of the unfiltered merge stream,
tracking the last emitted line globally.  Since ties are equivalent, no
two adjacent emitted lines are Comparator-equal. -/
theorem claim_C3 : ∀ (opts : SortOptions) (lines : List Line) (runs : List (List Line)),
    opts.unique = true →
    sortInMemory opts lines =
      (if opts.reverse then
        (collapseBy (equivalentLines opts) (stableSort opts lines)).reverse
      else collapseBy (equivalentLines opts) (stableSort opts lines)) ∧
    mergeFilesModel opts runs =
      collapseBy (equivalentLines opts) (mergeEntries opts (seedEntries runs)) ∧
    List.Chain' (fun a b => equivalentLines opts a b = false)
      (collapseBy (equivalentLines opts) (stableSort opts lines)) ∧
    List.Chain' (fun a b => equivalentLines opts a b = false)
      (mergeFilesModel opts runs) ∧
    (∀ a b : Line, equivalentLines opts a b = false → tieLine opts a b = false) := by
  intro opts lines runs hu
  have h2 : mergeFilesModel opts runs =
      collapseBy (equivalentLines opts) (mergeEntries opts (seedEntries runs)) := by
    unfold mergeFilesModel
    rw [hu]
    exact (mergeLoop_true opts _ (seedEntries runs) rfl).2 []
  refine ⟨?_, h2, collapseBy_chain _ _, ?_, ?_⟩
  · by_cases hr : opts.reverse = true
    · simp only [sortInMemory, hu, hr, if_true]
      rw [uniquePass_eq_collapseBy]
    · simp only [Bool.not_eq_true] at hr
      simp only [sortInMemory, hu, hr, Bool.false_eq_true, if_false, if_true]
      rw [uniquePass_eq_collapseBy]
  · rw [h2]; exact collapseBy_chain _ _
  · intro a b hne
    by_contra hc
    rw [Bool.not_eq_false] at hc
    unfold tieLine at hc
    simp only [Bool.and_eq_true, Bool.not_eq_true'] at hc
    rw [tie_equivalent hc.1 hc.2] at hne
    exact absurd hne (by simp)

theorem claim_C3_witness :
    (⟨false, false, false, false, 0, false, true⟩ : SortOptions).unique = true ∧
    sortInMemory ⟨false, false, false, false, 0, false, true⟩ [['b'], ['a'], ['a']] =
      (if (⟨false, false, false, false, 0, false, true⟩ : SortOptions).reverse then
        (collapseBy (equivalentLines ⟨false, false, false, false, 0, false, true⟩)
          (stableSort ⟨false, false, false, false, 0, false, true⟩
            [['b'], ['a'], ['a']])).reverse
      else collapseBy (equivalentLines ⟨false, false, false, false, 0, false, true⟩)
        (stableSort ⟨false, false, false, false, 0, false, true⟩ [['b'], ['a'], ['a']])) :=
  ⟨rfl, (claim_C3 ⟨false, false, false, false, 0, false, true⟩ [['b'], ['a'], ['a']] [] rfl).1⟩

/-- C3's counterexample: in numeric mode with unique, `"1a"` and `"1b"`
have equal numeric value 1 but are not Comparator-equal (the key
tie-break orders them strictly), so they form two distinct
Comparator-equal groups; the claim predicts both survive, yet the code
collapses them to `"1a"` alone. -/
theorem claim_C3_counterexample : ¬ c3Statement := by
  intro h
  have hva : numericValue ['1', 'a'] = 1 := by
    have h1 : numericValue ['1', 'a'] =
        ((1 : Nat) : ℚ) + ((0 : Nat) : ℚ) / 10 ^ (0 : Nat) := rfl
    rw [h1]; norm_num
  have hvb : numericValue ['1', 'b'] = 1 := by
    have h1 : numericValue ['1', 'b'] =
        ((1 : Nat) : ℚ) + ((0 : Nat) : ℚ) / 10 ^ (0 : Nat) := rfl
    rw [h1]; norm_num
  have hlab : inMemLess ⟨false, true, false, false, 0, false, true⟩
      ['1', 'a'] ['1', 'b'] = true := by
    simp only [inMemLess, normKey, getKey]
    norm_num [hva, hvb]
    decide
  have hlba : inMemLess ⟨false, true, false, false, 0, false, true⟩
      ['1', 'b'] ['1', 'a'] = false := by
    simp only [inMemLess, normKey, getKey]
    norm_num [hva, hvb]
    decide
  have hsAB : sortLe ⟨false, true, false, false, 0, false, true⟩
      ['1', 'a'] ['1', 'b'] = true := by
    unfold sortLe
    rw [hlba]
    rfl
  have heq : equivalentLines ⟨false, true, false, false, 0, false, true⟩
      ['1', 'a'] ['1', 'b'] = true := by
    simp only [equivalentLines, normKey, getKey]
    norm_num [hva, hvb]
  have hsort : stableSort ⟨false, true, false, false, 0, false, true⟩
      [['1', 'a'], ['1', 'b']] = [['1', 'a'], ['1', 'b']] := by
    simp only [stableSort, List.insertionSort, List.orderedInsert]
    simp [hsAB]
  have huniq : uniquePass ⟨false, true, false, false, 0, false, true⟩
      [['1', 'a'], ['1', 'b']] = [['1', 'a']] := by
    simp [uniquePass, uniqueGo, heq]
  have hout : sortInMemory ⟨false, true, false, false, 0, false, true⟩
      [['1', 'a'], ['1', 'b']] = [['1', 'a']] := by
    simp only [sortInMemory, hsort]
    simp [huniq]
  have htie : tieLine ⟨false, true, false, false, 0, false, true⟩
      ['1', 'a'] ['1', 'b'] = false := by
    unfold tieLine
    rw [hlab]
    rfl
  have hrhs : collapseBy (tieLine ⟨false, true, false, false, 0, false, true⟩)
      [['1', 'a'], ['1', 'b']] = [['1', 'a'], ['1', 'b']] := by
    simp [collapseBy, collapseGoBy, htie]
  have hcl := (h ⟨false, true, false, false, 0, false, true⟩
    [['1', 'a'], ['1', 'b']] [] rfl).1
  rw [hout, hsort] at hcl
  simp only [Bool.false_eq_true, if_false, if_true] at hcl
  rw [hrhs] at hcl
  simp at hcl

/-- C9 (corrected).  Sorting is a fixed point of itself whenever
reverse is off or unique is on.  (With reverse on and unique off, a
second sort reverses the relative order of Comparator-tied lines, see
the counterexample.) -/
theorem claim_C9 : ∀ (opts : SortOptions) (lines : List Line),
    opts.reverse = false ∨ opts.unique = true →
    sortInMemory opts (sortInMemory opts lines) = sortInMemory opts lines := by
  intro opts lines hcase
  by_cases hu : opts.unique = true
  · have hsorted := stableSort_sorted opts lines
    have hUsub : (uniquePass opts (stableSort opts lines)).Sublist
        (stableSort opts lines) := uniquePass_sublist opts _
    have hUsorted : List.Pairwise (fun a b => sortLe opts a b = true)
        (uniquePass opts (stableSort opts lines)) :=
      List.Pairwise.sublist hUsub hsorted
    have hUchain : List.Chain' (fun a b => equivalentLines opts a b = false)
        (uniquePass opts (stableSort opts lines)) := by
      rw [uniquePass_eq_collapseBy]
      exact collapseBy_chain _ _
    have hUuniq : uniquePass opts (uniquePass opts (stableSort opts lines)) =
        uniquePass opts (stableSort opts lines) :=
      uniquePass_of_chain opts _ hUchain
    have hUsort : stableSort opts (uniquePass opts (stableSort opts lines)) =
        uniquePass opts (stableSort opts lines) :=
      stableSort_of_sorted hUsorted
    by_cases hr : opts.reverse = true
    · have hstrict : ∀ a b : Line, sortLe opts a b = true →
          equivalentLines opts a b = false → inMemLess opts a b = true := by
        intro a b hle hne
        by_contra hab
        rw [Bool.not_eq_true] at hab
        have hba : inMemLess opts b a = false := by
          unfold sortLe at hle
          simpa using hle
        rw [tie_equivalent hab hba] at hne
        exact absurd hne (by simp)
      have hchain_lt : List.Chain' (fun a b => inMemLess opts a b = true)
          (uniquePass opts (stableSort opts lines)) :=
        chain'_combine (fun a b h1 h2 => hstrict a b h1 h2)
          hUsorted.chain' hUchain
      have hUlt : List.Pairwise (fun a b => inMemLess opts a b = true)
          (uniquePass opts (stableSort opts lines)) := by
        haveI : IsTrans Line (fun a b => inMemLess opts a b = true) :=
          ⟨fun a b c h1 h2 => inMemLess_trans h1 h2⟩
        exact List.chain'_iff_pairwise.mp hchain_lt
      have hrevsort : stableSort opts
          (uniquePass opts (stableSort opts lines)).reverse =
          uniquePass opts (stableSort opts lines) :=
        eq_of_sorted_perm opts
          ((stableSort_perm opts _).trans (List.reverse_perm _)) hUlt
          (stableSort_sorted opts _)
      have hout : sortInMemory opts lines =
          (uniquePass opts (stableSort opts lines)).reverse := by
        simp [sortInMemory, hu, hr]
      rw [hout]
      simp only [sortInMemory, hu, hr, if_true]
      rw [hrevsort, hUuniq]
    · simp only [Bool.not_eq_true] at hr
      have hout : sortInMemory opts lines =
          uniquePass opts (stableSort opts lines) := by
        simp [sortInMemory, hu, hr]
      rw [hout]
      simp only [sortInMemory, hu, hr, Bool.false_eq_true, if_false, if_true]
      rw [hUsort, hUuniq]
  · have hr : opts.reverse = false := by
      rcases hcase with h | h
      · exact h
      · exact absurd h hu
    rw [Bool.not_eq_true] at hu
    have hout : sortInMemory opts lines = stableSort opts lines := by
      simp [sortInMemory, hu, hr]
    rw [hout]
    simp only [sortInMemory, hu, hr, Bool.false_eq_true, if_false]
    exact stableSort_of_sorted (stableSort_sorted opts lines)

theorem claim_C9_witness :
    ((⟨false, false, false, false, 0, false, false⟩ : SortOptions).reverse = false ∨
      (⟨false, false, false, false, 0, false, false⟩ : SortOptions).unique = true) ∧
    sortInMemory ⟨false, false, false, false, 0, false, false⟩
        (sortInMemory ⟨false, false, false, false, 0, false, false⟩ [['b'], ['a']]) =
      sortInMemory ⟨false, false, false, false, 0, false, false⟩ [['b'], ['a']] :=
  ⟨Or.inl rfl, claim_C9 ⟨false, false, false, false, 0, false, false⟩
    [['b'], ['a']] (Or.inl rfl)⟩

/-- C9's counterexample: key column 2 with reverse and without unique.
The lines `"x\ta"` and `"y\ta"` are Comparator-tied (equal keys), so
the first sort outputs them in reversed input order and the second sort
reverses them again: the output is not a fixed point. -/
theorem claim_C9_counterexample : ¬ c9Statement := by
  intro h
  have := h ⟨true, false, false, false, 2, false, false⟩ [['x', '\t', 'a'], ['y', '\t', 'a']]
  revert this
  decide

/-- C5 (confirmed).  (i) The buffer `ReadLinesWithLimit` hands over
already satisfies the bound: all but its last line cost at most the
100 MiB budget.  (ii) Starting from any such buffer, after every step
of the `ExternalSort` ingestion loop the running total equals the
buffer's accounted cost and all but the last buffered line stay within
the budget — so the buffered total overshoots by at most the line that
triggered the flush decision.  (iii) A step flushes (changes the run
list) exactly when adding the line would exceed the budget with a
non-empty buffer, and then the new buffer holds just the pending line
with the total reset to that line's cost, the old buffer having been
sorted and emitted as a run. -/
theorem claim_C5 :
    (∀ (input : List Line) (errFlag : Bool),
      estimateMemorySize (readLinesWithLimit input errFlag).1.dropLast ≤ maxMemoryBytes) ∧
    (∀ (opts : SortOptions) (init rest : List Line),
      estimateMemorySize init.dropLast ≤ maxMemoryBytes →
      ∀ st ∈ List.scanl (extStep opts) ⟨init, estimateMemorySize init, []⟩ rest,
        st.memoryUsed = estimateMemorySize st.buffer ∧
        estimateMemorySize st.buffer.dropLast ≤ maxMemoryBytes) ∧
    (∀ (opts : SortOptions) (st : ExtState) (line : Line),
      ((extStep opts st line).runs ≠ st.runs ↔
        (maxMemoryBytes < st.memoryUsed + lineSize line ∧ st.buffer ≠ [])) ∧
      (maxMemoryBytes < st.memoryUsed + lineSize line ∧ st.buffer ≠ [] →
        (extStep opts st line).buffer = [line] ∧
        (extStep opts st line).memoryUsed = lineSize line ∧
        (extStep opts st line).runs = st.runs ++ [sortInMemory opts st.buffer])) := by
  refine ⟨?_, ?_, ?_⟩
  · intro input errFlag
    exact readLinesAuxB_dropLast maxMemoryBytes errFlag input []
      (by simp [estimateMemorySize])
  · intro opts init rest hinit st hst
    exact scanl_all (extStepB_budgetInv maxMemoryBytes opts) rest
      ⟨init, estimateMemorySize init, []⟩ ⟨rfl, hinit⟩ st hst
  · intro opts st line
    unfold extStep extStepB
    by_cases hc : maxMemoryBytes < st.memoryUsed + lineSize line ∧ st.buffer ≠ []
    · rw [if_pos hc]
      refine ⟨⟨fun _ => hc, fun _ => ?_⟩, fun _ => ⟨rfl, rfl, rfl⟩⟩
      intro hr
      have := congrArg List.length hr
      simp at this
    · rw [if_neg hc]
      exact ⟨⟨fun hr => absurd rfl hr, fun h => absurd h hc⟩, fun h => absurd h hc⟩

theorem claim_C5_witness :
    estimateMemorySize (List.dropLast [['a']]) ≤ maxMemoryBytes ∧
    ∀ st ∈ List.scanl (extStep ⟨false, false, false, false, 0, false, false⟩)
        ⟨[['a']], estimateMemorySize [['a']], []⟩ [['b'], ['c']],
      st.memoryUsed = estimateMemorySize st.buffer ∧
      estimateMemorySize st.buffer.dropLast ≤ maxMemoryBytes :=
  ⟨by decide,
    claim_C5.2.1 ⟨false, false, false, false, 0, false, false⟩ [['a']] [['b'], ['c']]
      (by decide)⟩

/-- C6 (confirmed).  Check mode scans adjacent pairs and is equivalent
to: find the first pair the comparator orders as greater under the
configured direction (reverse inverting it); report the diagnostic
`sort: <source>:<N>: disorder: <text>` where `N` is the current line's
1-based number and `text` its full text, else succeed silently; empty
and one-line inputs trivially succeed. -/
theorem claim_C6 : ∀ (lines : List Line) (source : Line) (opts : SortOptions),
    runCheck lines source opts =
      (firstDisorder opts lines).map
        (fun i => formatDisorder source (i + 2) (lines.getD (i + 1) [])) ∧
    (lines.length ≤ 1 → runCheck lines source opts = none) := by
  intro lines source opts
  have hmain : runCheck lines source opts =
      (firstDisorder opts lines).map
        (fun i => formatDisorder source (i + 2) (lines.getD (i + 1) [])) := by
    cases lines with
    | nil => simp [runCheck, firstDisorder]
    | cons l rest =>
      show checkLoop opts source l rest 2 =
        (((l :: rest).zip (l :: rest).tail).findIdx?
            (fun p => orderGt opts p.1 p.2)).map
          (fun i => formatDisorder source (i + 2) ((l :: rest).getD (i + 1) []))
      rw [checkLoop_spec opts source rest l 2]
      simp only [List.tail_cons]
      cases hfind : ((l :: rest).zip rest).findIdx?
          (fun p => orderGt opts p.1 p.2) with
      | none => rfl
      | some i =>
        have h2 : 2 + i = i + 2 := by omega
        simp [h2]
  refine ⟨hmain, fun hlen => ?_⟩
  rw [hmain]
  cases lines with
  | nil => simp [firstDisorder]
  | cons l rest =>
    cases rest with
    | nil => simp [firstDisorder]
    | cons m t => simp at hlen

theorem claim_C6_witness :
    (runCheck [['b'], ['a']] ['-'] ⟨false, false, false, false, 0, false, false⟩ =
      (firstDisorder ⟨false, false, false, false, 0, false, false⟩ [['b'], ['a']]).map
        (fun i => formatDisorder ['-'] (i + 2) ([['b'], ['a']].getD (i + 1) []))) ∧
    (([['b']] : List Line).length ≤ 1 →
      runCheck [['b']] ['-'] ⟨false, false, false, false, 0, false, false⟩ = none) :=
  ⟨(claim_C6 [['b'], ['a']] ['-'] ⟨false, false, false, false, 0, false, false⟩).1,
    fun _ => (claim_C6 [['b']] ['-'] ⟨false, false, false, false, 0, false, false⟩).2
      (by decide)⟩

/-- C7 (confirmed).  The fan-in reduction leaves at most 64 runs for
the final merge, every batch handed to `mergeChunk` during any pass has
at most 64 runs, the loop is the identity when at most 64 runs exist
(the reduction happens only when the run count exceeds the limit), and
the reduction preserves the lines carried by the runs. -/
theorem claim_C7 : ∀ (opts : SortOptions) (files : List (List Line)),
    (reduceLoop opts files).length ≤ maxOpenFiles ∧
    (∀ n ∈ allChunkSizes opts files, n ≤ maxOpenFiles) ∧
    (files.length ≤ maxOpenFiles → reduceLoop opts files = files) ∧
    List.Perm (reduceLoop opts files).flatten files.flatten :=
  fun opts files =>
    ⟨reduceLoop_length_le opts files, allChunkSizes_le opts files,
      fun h => by rw [reduceLoop, if_pos h], reduceLoop_flatten_perm opts files⟩

theorem claim_C7_witness :
    (reduceLoop ⟨false, false, false, false, 0, false, false⟩ [[['a']], [['b']]]).length
      ≤ maxOpenFiles ∧
    reduceLoop ⟨false, false, false, false, 0, false, false⟩ [[['a']], [['b']]] =
      [[['a']], [['b']]] :=
  ⟨(claim_C7 ⟨false, false, false, false, 0, false, false⟩ [[['a']], [['b']]]).1,
    (claim_C7 ⟨false, false, false, false, 0, false, false⟩ [[['a']], [['b']]]).2.2.1
      (by decide)⟩

/-- C8 (confirmed).  With unique disabled, the in-memory sort is a
permutation of its input, and the external pipeline (ingestion into
runs, fan-in reduction, final merge; also the zero- and one-run
degenerate paths) emits a permutation of the initial buffer followed by
the scanned input: no line is lost or duplicated on either path. -/
theorem claim_C8 : ∀ (opts : SortOptions) (lines init input : List Line),
    opts.unique = false →
    List.Perm (sortInMemory opts lines) lines ∧
    List.Perm (externalSortOut opts init input) (init ++ input) := by
  intro opts lines init input h
  exact ⟨sortInMemory_perm opts h lines,
    externalSortOutB_perm maxMemoryBytes opts h init input⟩

theorem claim_C8_witness :
    (⟨false, false, false, false, 0, false, false⟩ : SortOptions).unique = false ∧
    List.Perm
      (sortInMemory ⟨false, false, false, false, 0, false, false⟩ [['b'], ['a']])
      [['b'], ['a']] ∧
    List.Perm
      (externalSortOut ⟨false, false, false, false, 0, false, false⟩ [] [['b'], ['a']])
      ([] ++ [['b'], ['a']]) :=
  ⟨rfl, claim_C8 ⟨false, false, false, false, 0, false, false⟩ [['b'], ['a']] []
    [['b'], ['a']] rfl⟩

/-- C10 (confirmed).  `ReadLinesWithLimit` returns, at the first line
whose accounted cost pushes the running total over the budget, every
line read so far including that overflowing line together with
`ErrInputTooLarge` (no line is dropped at the handoff); with no
overflow, a scanner error yields the nil slice with that error, and
otherwise all lines are returned without error. -/
theorem claim_C10 : ∀ (input : List Line) (errFlag : Bool),
    readLinesWithLimit input errFlag =
      match overflowIdx input with
      | some k => (input.take (k + 1), some ReadErr.tooLarge)
      | none => if errFlag then ([], some ReadErr.scanErr) else (input, none) := by
  intro input errFlag
  have h := readLinesAuxB_spec maxMemoryBytes errFlag input []
  simp only [List.nil_append] at h
  exact h

end UnixSort
